import Mathlib

/-!
Shallow embedding of the consolidation engine of `excel_consolidator.py`
(class `ExcelConsolidator`).

The engine state is the triple of attributes set up in `__init__`:
`all_keys` (a Python `set`, modelled as an insertion-ordered duplicate-free
list), `file_data` (a Python `dict` from relative path to the per-file
key→value dict) and `file_order` (a Python `dict` from relative path to the
per-file ordered key list).  Python dicts are modelled as association lists
with Python's insertion semantics (`dset` keeps the original position of an
overwritten key).  All cell contents are strings (the reader coerces cells
to `str`); a pandas `NaN` (absent cell) is modelled as `none`.

A source file is a `FileInput`: its basename (inspected by `_scan_files`),
its root-relative path (the value of `_get_relative_path`), and its content:
`none` when `pd.read_excel` raises (corrupt/unreadable file) and
`some rows` when the first sheet's two columns are read successfully.

`consolidate` returns the final engine state together with
`none` when the Python method returns `False` before building the table, and
`some table` when it hands `table` (the `data_rows` grid, header first) to
the export step and returns `True`.
-/

namespace Consolidator

/-- A raw cell of the source sheet: `none` is a pandas `NaN` (absent/empty
cell), `some s` a present cell already coerced to the string `s`. -/
abbrev Cell := Option String

/-- One row of the source sheet: first-column cell (key) and second-column
cell (value), as read by `usecols=[0, 1]`. -/
abbrev Row := Cell × Cell

/-- One file seen by the engine: basename, root-relative path, and parsed
content (`none` models a file whose opening/parsing raises). -/
structure FileInput where
  name : String
  relpath : String
  content : Option (List Row)
deriving DecidableEq

/-- The per-file extracted mapping (`data_dict`): an association list
modelling a Python dict. -/
abbrev Record := List (String × String)

/-- Python `d.get(k)` / `k in d`: the binding of `k` in the dict `d`. -/
def dget {α : Type} : List (String × α) → String → Option α
  | [], _ => none
  | p :: d, k => if p.1 = k then some p.2 else dget d k

/-- Python `d[k] = v`: overwrite in place if `k` is present, else append. -/
def dset {α : Type} : List (String × α) → String → α → List (String × α)
  | [], k, v => [(k, v)]
  | p :: d, k, v => if p.1 = k then (k, v) :: d else p :: dset d k v

/-- Python `s.add(k)` on the insertion-ordered model of a set. -/
def sadd (s : List String) (k : String) : List String :=
  if k ∈ s then s else s ++ [k]

/-- Python `str.strip()`: remove leading and trailing whitespace. -/
def pyStrip (s : String) : String :=
  ⟨((s.data.dropWhile Char.isWhitespace).reverse.dropWhile Char.isWhitespace).reverse⟩

/-- Python `str.lower()`: lowercase every character. -/
def pyLower (s : String) : String :=
  ⟨s.data.map Char.toLower⟩

/-- Python `s.endswith(t)`. -/
def pyEndsWith (s t : String) : Bool :=
  t.data.isSuffixOf s.data

/-- Python `s.startswith(t)`. -/
def pyStartsWith (s t : String) : Bool :=
  t.data.isPrefixOf s.data

/-- Python `a <= b` on strings: lexicographic comparison of the two
character sequences by code point (case-sensitive). -/
def charListLe : List Char → List Char → Bool
  | [], _ => true
  | _ :: _, [] => false
  | a :: as, b :: bs =>
    if a < b then true
    else if b < a then false
    else charListLe as bs

/-- Lexicographic, case-sensitive order on raw strings, the order used by
Python's `sorted` on `str`. -/
def lexLe (a b : String) : Bool := charListLe a.data b.data

/-- Python `sorted(l)` for a list of strings: sort ascending by `lexLe`
(Python's sort is stable, which is irrelevant on the duplicate-free inputs
the engine sorts). -/
def pySorted (l : List String) : List String :=
  List.insertionSort (fun a b => lexLe a b = true) l

/-- The filename filter of `_scan_files`:
`file.lower().endswith(('.xlsx', '.xls', '.xlsm'))`. -/
def isExcelName (n : String) : Bool :=
  pyEndsWith (pyLower n) ".xlsx" || pyEndsWith (pyLower n) ".xls" ||
    pyEndsWith (pyLower n) ".xlsm"

/-- Method `_scan_files`: walk the tree (the input list is the walk order)
and keep the files whose name passes the extension filter and does not
start with the Excel lock-file marker `~$`.  No content is inspected. -/
def scan_files (dir : List FileInput) : List FileInput :=
  dir.foldl (fun acc f =>
    if isExcelName f.name then
      if ¬ pyStartsWith f.name "~$" then acc ++ [f] else acc
    else acc) []

/-- The engine state: the three attributes of an `ExcelConsolidator`
instance. -/
structure Engine where
  all_keys : List String
  file_data : List (String × Record)
  file_order : List (String × List String)
deriving DecidableEq

/-- The state of a freshly constructed `ExcelConsolidator` (after
`_validate_path` succeeded). -/
def initEngine : Engine := ⟨[], [], []⟩

/-- Key-cell normalisation in `_read_excel`:
`str(row[0]).strip() if pd.notna(row[0]) else ""`. -/
def keyOf (r : Row) : String :=
  match r.1 with
  | some s => pyStrip s
  | none => ""

/-- Value-cell normalisation in `_read_excel`:
`row[1] if pd.notna(row[1]) else ""`. -/
def valOf (r : Row) : String :=
  match r.2 with
  | some s => s
  | none => ""

/-- One iteration of the row loop of `_read_excel`; the accumulator is
`(data_dict, key_order, all_keys)`.  A row with an empty post-trim key is
skipped; a key already in `data_dict` is skipped (first occurrence wins);
otherwise the value is recorded, the key appended to `key_order` and added
to the engine's `all_keys`. -/
def readRow (acc : Record × List String × List String) (r : Row) :
    Record × List String × List String :=
  let key := keyOf r
  let value := valOf r
  if key ≠ "" then
    if dget acc.1 key = none then
      (dset acc.1 key value, acc.2.1 ++ [key], sadd acc.2.2 key)
    else acc
  else acc

/-- Method `_read_excel`: on a readable file run the row loop and store the
key order under the file's relative path; on a failing file catch the
exception and return an empty dict, leaving the engine untouched. -/
def read_excel (e : Engine) (f : FileInput) : Engine × Record :=
  match f.content with
  | none => (e, [])
  | some rows =>
      let acc := rows.foldl readRow ([], [], e.all_keys)
      ({ e with all_keys := acc.2.2,
                file_order := dset e.file_order f.relpath acc.2.1 }, acc.1)

/-- One iteration of the file loop of `consolidate`:
`self.file_data[relative_path] = self._read_excel(file)`. -/
def processFile (e : Engine) (f : FileInput) : Engine :=
  let r := read_excel e f
  { r.1 with file_data := dset r.1.file_data f.relpath r.2 }

/-- Row assembly of `consolidate` for one entry `(relative_path, data)` of
`file_data`: build `value_map` first from the file's own key order, then
fill the missing sorted keys, and emit the relative path followed by the
cells in global sorted key order. -/
def buildRow (e : Engine) (sorted_keys : List String) (p : String × Record) :
    List String :=
  let file_keys := (dget e.file_order p.1).getD []
  let vm := file_keys.foldl (fun vm k => dset vm k ((dget p.2 k).getD "")) []
  let vm := sorted_keys.foldl
    (fun vm k => if dget vm k = none then dset vm k ((dget p.2 k).getD "") else vm) vm
  p.1 :: sorted_keys.map (fun k => (dget vm k).getD "")

/-- Method `consolidate`: scan, read every discovered file, fail (`none`)
when no file was found or when no key was collected, else assemble the
header plus one row per `file_data` entry and hand the grid to export. -/
def consolidate (e₀ : Engine) (dir : List FileInput) :
    Engine × Option (List (List String)) :=
  let excel_files := scan_files dir
  if excel_files.isEmpty then (e₀, none)
  else
    let e := excel_files.foldl processFile e₀
    if e.all_keys.isEmpty then (e, none)
    else
      let sorted_keys := pySorted e.all_keys
      let data_rows := e.file_data.foldl
        (fun acc p => acc ++ [buildRow e sorted_keys p])
        [("Source File" :: sorted_keys)]
      (e, some data_rows)

/-- Method `get_summary`: file count, distinct key count, relative paths. -/
def get_summary (e : Engine) : Nat × Nat × List String :=
  (e.file_data.length, e.all_keys.length, e.file_data.map Prod.fst)

/-- The pure per-file extraction: the `(data_dict, key_order)` part of the
row loop, independent of the engine (used to state properties; the bridge
to `readRow` is proved below). -/
def pairStep (acc : Record × List String) (r : Row) : Record × List String :=
  let key := keyOf r
  let value := valOf r
  if key ≠ "" then
    if dget acc.1 key = none then (dset acc.1 key value, acc.2 ++ [key]) else acc
  else acc

/-- The record `_read_excel` extracts from a file (empty for a failing
file). -/
def fileRecord (f : FileInput) : Record :=
  match f.content with
  | none => []
  | some rows => (rows.foldl pairStep ([], [])).1

/-- The ordered key list `_read_excel` extracts from a file (empty for a
failing file). -/
def fileKeys (f : FileInput) : List String :=
  match f.content with
  | none => []
  | some rows => (rows.foldl pairStep ([], [])).2

/-! Dictionary and set model lemmas. -/

theorem dget_dset {α : Type} (d : List (String × α)) (k k' : String) (v : α) :
    dget (dset d k v) k' = if k = k' then some v else dget d k' := by
  induction d with
  | nil => simp [dget, dset]
  | cons p d ih =>
    by_cases hp : p.1 = k
    · by_cases hk : k = k'
      · simp [dset, dget, hp, hk]
      · have hpk' : p.1 ≠ k' := by rw [hp]; exact hk
        simp [dset, dget, hp, hk, hpk']
    · by_cases hpk' : p.1 = k'
      · have hk : k ≠ k' := fun h => hp (hpk'.trans h.symm)
        simp [dset, dget, hp, hpk', hk, Ne.symm hk]
      · simp [dset, dget, hp, hpk', ih]

theorem dget_dset_self {α : Type} (d : List (String × α)) (k : String) (v : α) :
    dget (dset d k v) k = some v := by
  simp [dget_dset]

theorem dget_dset_ne {α : Type} (d : List (String × α)) (k k' : String) (v : α)
    (h : k ≠ k') : dget (dset d k v) k' = dget d k' := by
  simp [dget_dset, h]

theorem dget_append {α : Type} (d₁ d₂ : List (String × α)) (k : String) :
    dget (d₁ ++ d₂) k =
      match dget d₁ k with
      | some v => some v
      | none => dget d₂ k := by
  induction d₁ with
  | nil => simp [dget]
  | cons p d ih =>
    by_cases hp : p.1 = k <;> simp [dget, hp, ih]

theorem dset_eq_append {α : Type} (d : List (String × α)) (k : String) (v : α)
    (h : dget d k = none) : dset d k v = d ++ [(k, v)] := by
  induction d with
  | nil => simp [dset]
  | cons p d ih =>
    by_cases hp : p.1 = k
    · simp [dget, hp] at h
    · simp [dget, hp] at h
      simp [dset, hp, ih h]

theorem mem_sadd (s : List String) (k k' : String) :
    k' ∈ sadd s k ↔ k' ∈ s ∨ k' = k := by
  unfold sadd
  by_cases h : k ∈ s
  · simp only [h, if_true]
    constructor
    · exact Or.inl
    · rintro (hs | rfl) <;> assumption
  · simp [h]

theorem nodup_sadd (s : List String) (k : String) (h : s.Nodup) :
    (sadd s k).Nodup := by
  unfold sadd
  by_cases hk : k ∈ s
  · simpa [hk]
  · rw [if_neg hk, List.nodup_append]
    exact ⟨h, List.nodup_singleton k, by simp [List.disjoint_singleton, hk]⟩

theorem foldl_append_singleton {α β : Type} (g : α → β) (l : List α) (init : List β) :
    l.foldl (fun acc x => acc ++ [g x]) init = init ++ l.map g := by
  induction l generalizing init with
  | nil => simp
  | cons a l ih => simp [List.foldl_cons, ih]

/-! Lexicographic order lemmas, feeding the sortedness facts about
`pySorted`. -/

theorem charListLe_total : ∀ as bs, charListLe as bs = true ∨ charListLe bs as = true := by
  intro as
  induction as with
  | nil => intro bs; exact Or.inl rfl
  | cons a as ih =>
    intro bs
    cases bs with
    | nil => exact Or.inr rfl
    | cons b bs =>
      rcases lt_trichotomy a b with h | h | h
      · left; simp [charListLe, h]
      · subst h
        rcases ih bs with hl | hl
        · left; simpa [charListLe, lt_irrefl] using hl
        · right; simpa [charListLe, lt_irrefl] using hl
      · right; simp [charListLe, h]

theorem charListLe_trans : ∀ as bs cs, charListLe as bs = true →
    charListLe bs cs = true → charListLe as cs = true := by
  intro as
  induction as with
  | nil => intro bs cs _ _; rfl
  | cons a as ih =>
    intro bs cs h₁ h₂
    cases bs with
    | nil => simp [charListLe] at h₁
    | cons b bs =>
      cases cs with
      | nil => simp [charListLe] at h₂
      | cons c cs =>
        rcases lt_trichotomy a b with hab | hab | hab
        · rcases lt_trichotomy b c with hbc | hbc | hbc
          · simp [charListLe, lt_trans hab hbc]
          · subst hbc; simp [charListLe, hab]
          · simp [charListLe, hbc, asymm hbc] at h₂
        · subst hab
          rcases lt_trichotomy a c with hac | hac | hac
          · simp [charListLe, hac]
          · subst hac
            simp only [charListLe, lt_irrefl, if_false] at h₁ h₂ ⊢
            exact ih bs cs h₁ h₂
          · simp [charListLe, hac, asymm hac] at h₂
        · simp [charListLe, hab, asymm hab] at h₁

theorem charListLe_antisymm : ∀ as bs, charListLe as bs = true →
    charListLe bs as = true → as = bs := by
  intro as
  induction as with
  | nil =>
    intro bs _ h₂
    cases bs with
    | nil => rfl
    | cons b bs => simp [charListLe] at h₂
  | cons a as ih =>
    intro bs h₁ h₂
    cases bs with
    | nil => simp [charListLe] at h₁
    | cons b bs =>
      rcases lt_trichotomy a b with hab | hab | hab
      · simp [charListLe, hab, asymm hab] at h₂
      · subst hab
        simp only [charListLe, lt_irrefl, if_false] at h₁ h₂
        rw [ih bs h₁ h₂]
      · simp [charListLe, hab, asymm hab] at h₁

theorem lexLe_total (a b : String) : lexLe a b = true ∨ lexLe b a = true :=
  charListLe_total a.data b.data

theorem lexLe_trans (a b c : String) (h₁ : lexLe a b = true) (h₂ : lexLe b c = true) :
    lexLe a c = true :=
  charListLe_trans a.data b.data c.data h₁ h₂

theorem lexLe_antisymm (a b : String) (h₁ : lexLe a b = true) (h₂ : lexLe b a = true) :
    a = b := by
  cases a with
  | mk da =>
    cases b with
    | mk db => exact congrArg String.mk (charListLe_antisymm da db h₁ h₂)

theorem pySorted_perm (l : List String) : List.Perm (pySorted l) l :=
  List.perm_insertionSort _ l

theorem pySorted_sorted (l : List String) :
    (pySorted l).Sorted (fun a b => lexLe a b = true) := by
  haveI : IsTotal String (fun a b => lexLe a b = true) := ⟨lexLe_total⟩
  haveI : IsTrans String (fun a b => lexLe a b = true) := ⟨lexLe_trans⟩
  exact List.sorted_insertionSort _ l

theorem pySorted_nodup (l : List String) (h : l.Nodup) : (pySorted l).Nodup :=
  (pySorted_perm l).nodup_iff.mpr h

theorem pySorted_mem (k : String) (l : List String) : k ∈ pySorted l ↔ k ∈ l :=
  (pySorted_perm l).mem_iff

theorem pySorted_eq_of_mem_iff (l₁ l₂ : List String) (h₁ : l₁.Nodup) (h₂ : l₂.Nodup)
    (h : ∀ k, k ∈ l₁ ↔ k ∈ l₂) : pySorted l₁ = pySorted l₂ := by
  haveI : IsAntisymm String (fun a b => lexLe a b = true) := ⟨lexLe_antisymm⟩
  refine List.eq_of_perm_of_sorted ?_ (pySorted_sorted l₁) (pySorted_sorted l₂)
  exact ((pySorted_perm l₁).trans
    ((List.perm_ext_iff_of_nodup h₁ h₂).mpr h)).trans (pySorted_perm l₂).symm

/-! Row-loop lemmas: the `(data_dict, key_order)` components of the loop of
`_read_excel` coincide with the pure `pairStep` fold, and the `all_keys`
component collects exactly the newly recorded keys. -/

theorem pairStep_skip (d : Record) (ko : List String) (r : Row) (h : keyOf r = "") :
    pairStep (d, ko) r = (d, ko) := by
  unfold pairStep
  simp [h]

theorem pairStep_dup (d : Record) (ko : List String) (r : Row) (h1 : keyOf r ≠ "")
    (h2 : dget d (keyOf r) ≠ none) : pairStep (d, ko) r = (d, ko) := by
  unfold pairStep
  simp [h1, h2]

theorem pairStep_new (d : Record) (ko : List String) (r : Row) (h1 : keyOf r ≠ "")
    (h2 : dget d (keyOf r) = none) :
    pairStep (d, ko) r = (dset d (keyOf r) (valOf r), ko ++ [keyOf r]) := by
  unfold pairStep
  simp [h1, h2]

theorem readRow_skip (d : Record) (ko ak : List String) (r : Row) (h : keyOf r = "") :
    readRow (d, ko, ak) r = (d, ko, ak) := by
  unfold readRow
  simp [h]

theorem readRow_dup (d : Record) (ko ak : List String) (r : Row) (h1 : keyOf r ≠ "")
    (h2 : dget d (keyOf r) ≠ none) : readRow (d, ko, ak) r = (d, ko, ak) := by
  unfold readRow
  simp [h1, h2]

theorem readRow_new (d : Record) (ko ak : List String) (r : Row) (h1 : keyOf r ≠ "")
    (h2 : dget d (keyOf r) = none) :
    readRow (d, ko, ak) r =
      (dset d (keyOf r) (valOf r), ko ++ [keyOf r], sadd ak (keyOf r)) := by
  unfold readRow
  simp [h1, h2]

theorem readRow_fst_snd (d : Record) (ko ak : List String) (r : Row) :
    readRow (d, ko, ak) r =
      ((pairStep (d, ko) r).1, (pairStep (d, ko) r).2, (readRow (d, ko, ak) r).2.2) := by
  unfold readRow pairStep
  by_cases h1 : keyOf r ≠ ""
  · by_cases h2 : dget d (keyOf r) = none <;> simp [h1, h2]
  · simp [h1]

theorem foldl_readRow_eq (rows : List Row) :
    ∀ (d : Record) (ko ak : List String),
    (rows.foldl readRow (d, ko, ak)).1 = (rows.foldl pairStep (d, ko)).1 ∧
    (rows.foldl readRow (d, ko, ak)).2.1 = (rows.foldl pairStep (d, ko)).2 := by
  induction rows with
  | nil => intro d ko ak; exact ⟨rfl, rfl⟩
  | cons r rows ih =>
    intro d ko ak
    rw [List.foldl_cons, List.foldl_cons, readRow_fst_snd]
    exact ih _ _ _

theorem dget_foldl_pairStep_mono (rows : List Row) :
    ∀ (d : Record) (ko : List String) (k : String) (v : String),
    dget d k = some v → dget (rows.foldl pairStep (d, ko)).1 k = some v := by
  induction rows with
  | nil => intro d ko k v h; exact h
  | cons r rows ih =>
    intro d ko k v h
    rw [List.foldl_cons]
    unfold pairStep
    by_cases h1 : keyOf r ≠ ""
    · by_cases h2 : dget d (keyOf r) = none
      · have hne : keyOf r ≠ k := by
          intro he
          rw [he, h] at h2
          exact Option.noConfusion h2
        simp only [h1, h2, if_true, ne_eq, not_false_eq_true]
        apply ih
        rw [dget_dset_ne _ _ _ _ hne]
        exact h
      · simp only [h1, h2, if_false, ne_eq, not_false_eq_true, if_true]
        exact ih _ _ _ _ h
    · simp only [h1, if_false]
      exact ih _ _ _ _ h

theorem dget_foldl_pairStep_none (rows : List Row) :
    ∀ (d : Record) (ko : List String) (k : String),
    dget (rows.foldl pairStep (d, ko)).1 k = none → dget d k = none := by
  intro d ko k h
  cases hd : dget d k with
  | none => rfl
  | some v => rw [dget_foldl_pairStep_mono rows d ko k v hd] at h; exact Option.noConfusion h

theorem foldl_readRow_allKeys_mem (rows : List Row) :
    ∀ (d : Record) (ko ak : List String) (k : String),
    k ∈ (rows.foldl readRow (d, ko, ak)).2.2 ↔
      k ∈ ak ∨ (dget (rows.foldl pairStep (d, ko)).1 k ≠ none ∧ dget d k = none) := by
  induction rows with
  | nil =>
    intro d ko ak k
    simp only [List.foldl_nil]
    constructor
    · exact Or.inl
    · rintro (h | ⟨h1, h2⟩)
      · exact h
      · exact absurd h2 h1
  | cons r rows ih =>
    intro d ko ak k
    rw [List.foldl_cons, List.foldl_cons]
    by_cases h1 : keyOf r ≠ ""
    · by_cases h2 : dget d (keyOf r) = none
      · rw [readRow_new _ _ _ _ h1 h2, pairStep_new _ _ _ h1 h2]
        rw [ih]
        by_cases hk : k = keyOf r
        · subst hk
          constructor
          · intro _
            refine Or.inr ⟨?_, h2⟩
            rw [dget_foldl_pairStep_mono rows _ _ (keyOf r) (valOf r)
              (dget_dset_self d (keyOf r) (valOf r))]
            simp
          · intro _
            left
            rw [mem_sadd]
            exact Or.inr rfl
        · have hks : dget (dset d (keyOf r) (valOf r)) k = dget d k :=
            dget_dset_ne _ _ _ _ (fun h => hk h.symm)
          rw [mem_sadd, hks]
          constructor
          · rintro ((h | h) | h)
            · exact Or.inl h
            · exact absurd h hk
            · exact Or.inr h
          · rintro (h | h)
            · exact Or.inl (Or.inl h)
            · exact Or.inr h
      · rw [readRow_dup _ _ _ _ h1 h2, pairStep_dup _ _ _ h1 h2]
        exact ih _ _ _ _
    · rw [not_not] at h1
      rw [readRow_skip _ _ _ _ h1, pairStep_skip _ _ _ h1]
      exact ih _ _ _ _

theorem foldl_readRow_allKeys_nodup (rows : List Row) :
    ∀ (d : Record) (ko ak : List String), ak.Nodup →
    (rows.foldl readRow (d, ko, ak)).2.2.Nodup := by
  induction rows with
  | nil => intro d ko ak h; exact h
  | cons r rows ih =>
    intro d ko ak h
    rw [List.foldl_cons]
    unfold readRow
    by_cases h1 : keyOf r ≠ ""
    · by_cases h2 : dget d (keyOf r) = none
      · simp only [h1, h2, ne_eq, not_false_eq_true, if_true]
        exact ih _ _ _ (nodup_sadd _ _ h)
      · simp only [h1, h2, ne_eq, not_false_eq_true, if_false, if_true]
        exact ih _ _ _ h
    · simp only [h1, if_false]
      exact ih _ _ _ h

theorem foldl_pairStep_inv (rows : List Row) :
    ∀ (d : Record) (ko : List String),
    ko.Nodup → (∀ k, k ∈ ko ↔ dget d k ≠ none) →
    (rows.foldl pairStep (d, ko)).2.Nodup ∧
      (∀ k, k ∈ (rows.foldl pairStep (d, ko)).2 ↔
        dget (rows.foldl pairStep (d, ko)).1 k ≠ none) := by
  induction rows with
  | nil => intro d ko h1 h2; exact ⟨h1, h2⟩
  | cons r rows ih =>
    intro d ko hnd hiff
    rw [List.foldl_cons]
    unfold pairStep
    by_cases h1 : keyOf r ≠ ""
    · by_cases h2 : dget d (keyOf r) = none
      · simp only [h1, h2, ne_eq, not_false_eq_true, if_true]
        apply ih
        · rw [List.nodup_append]
          refine ⟨hnd, List.nodup_singleton _, ?_⟩
          simp only [List.disjoint_singleton]
          intro hmem
          exact (hiff (keyOf r)).mp hmem h2
        · intro k
          rw [List.mem_append, List.mem_singleton, dget_dset, hiff]
          by_cases hk : keyOf r = k
          · subst hk
            simp [h2]
          · simp only [hk, if_false]
            constructor
            · rintro (h | h)
              · exact h
              · exact absurd h.symm hk
            · exact Or.inl
      · simp only [h1, h2, ne_eq, not_false_eq_true, if_false, if_true]
        exact ih _ _ hnd hiff
    · simp only [h1, if_false]
      exact ih _ _ hnd hiff

theorem dget_foldl_pairStep_find (rows : List Row) :
    ∀ (d : Record) (ko : List String) (k : String) (r₀ : Row),
    k ≠ "" → dget d k = none →
    rows.find? (fun r => keyOf r == k) = some r₀ →
    dget (rows.foldl pairStep (d, ko)).1 k = some (valOf r₀) := by
  induction rows with
  | nil => intro d ko k r₀ _ _ h; exact Option.noConfusion h
  | cons r rows ih =>
    intro d ko k r₀ hk hd hfind
    rw [List.foldl_cons]
    by_cases hkey : keyOf r = k
    · have : r₀ = r := by
        rw [List.find?_cons_of_pos _ (by simp [hkey])] at hfind
        exact (Option.some.inj hfind).symm
      subst this
      unfold pairStep
      rw [hkey]
      simp only [hk, hd, ne_eq, not_false_eq_true, if_true]
      exact dget_foldl_pairStep_mono rows _ _ k (valOf r₀) (dget_dset_self d k (valOf r₀))
    · rw [List.find?_cons_of_neg _ (by simp [hkey])] at hfind
      unfold pairStep
      by_cases h1 : keyOf r ≠ ""
      · by_cases h2 : dget d (keyOf r) = none
        · simp only [h1, h2, ne_eq, not_false_eq_true, if_true]
          apply ih _ _ _ _ hk _ hfind
          rw [dget_dset_ne _ _ _ _ hkey]
          exact hd
        · simp only [h1, h2, ne_eq, not_false_eq_true, if_false, if_true]
          exact ih _ _ _ _ hk hd hfind
      · simp only [h1, if_false]
        exact ih _ _ _ _ hk hd hfind

theorem dget_foldl_pairStep_nil_key (rows : List Row) :
    ∀ (d : Record) (ko : List String),
    dget d "" = none → dget (rows.foldl pairStep (d, ko)).1 "" = none := by
  induction rows with
  | nil => intro d ko h; exact h
  | cons r rows ih =>
    intro d ko h
    rw [List.foldl_cons]
    unfold pairStep
    by_cases h1 : keyOf r ≠ ""
    · by_cases h2 : dget d (keyOf r) = none
      · simp only [h1, h2, ne_eq, not_false_eq_true, if_true]
        apply ih
        rw [dget_dset_ne _ _ _ _ h1]
        exact h
      · simp only [h1, h2, ne_eq, not_false_eq_true, if_false, if_true]
        exact ih _ _ h
    · simp only [h1, if_false]
      exact ih _ _ h

/-! Engine-level lemmas about `read_excel`, `processFile`, and the file loop
of `consolidate`. -/

theorem read_excel_record (e : Engine) (f : FileInput) :
    (read_excel e f).2 = fileRecord f := by
  cases hc : f.content with
  | none => simp [read_excel, hc, fileRecord]
  | some rows =>
      simp only [read_excel, hc, fileRecord]
      exact (foldl_readRow_eq rows [] [] e.all_keys).1

theorem read_excel_file_data (e : Engine) (f : FileInput) :
    (read_excel e f).1.file_data = e.file_data := by
  cases hc : f.content <;> simp [read_excel, hc]

theorem read_excel_all_keys_mem (e : Engine) (f : FileInput) (k : String) :
    k ∈ (read_excel e f).1.all_keys ↔
      k ∈ e.all_keys ∨ dget (fileRecord f) k ≠ none := by
  cases hc : f.content with
  | none =>
      simp only [read_excel, hc, fileRecord, dget]
      constructor
      · exact Or.inl
      · rintro (h | h)
        · exact h
        · exact absurd rfl h
  | some rows =>
      simp only [read_excel, hc, fileRecord]
      rw [foldl_readRow_allKeys_mem rows [] [] e.all_keys k]
      have hnil : dget ([] : Record) k = none := rfl
      simp [hnil]

theorem read_excel_all_keys_nodup (e : Engine) (f : FileInput)
    (h : e.all_keys.Nodup) : (read_excel e f).1.all_keys.Nodup := by
  cases hc : f.content with
  | none => simpa [read_excel, hc]
  | some rows =>
      simp only [read_excel, hc]
      exact foldl_readRow_allKeys_nodup rows [] [] e.all_keys h

theorem processFile_all_keys (e : Engine) (f : FileInput) :
    (processFile e f).all_keys = (read_excel e f).1.all_keys := rfl

theorem processFile_file_order (e : Engine) (f : FileInput) :
    (processFile e f).file_order = (read_excel e f).1.file_order := rfl

theorem processFile_file_data (e : Engine) (f : FileInput) :
    (processFile e f).file_data = dset e.file_data f.relpath (fileRecord f) := by
  unfold processFile
  simp [read_excel_file_data, read_excel_record]

theorem foldl_processFile_all_keys_mem (files : List FileInput) :
    ∀ (e : Engine) (k : String),
    k ∈ (files.foldl processFile e).all_keys ↔
      k ∈ e.all_keys ∨ ∃ f ∈ files, dget (fileRecord f) k ≠ none := by
  induction files with
  | nil => intro e k; simp
  | cons f files ih =>
    intro e k
    rw [List.foldl_cons, ih]
    rw [processFile_all_keys, read_excel_all_keys_mem]
    constructor
    · rintro ((h | h) | ⟨g, hg, hk⟩)
      · exact Or.inl h
      · exact Or.inr ⟨f, List.mem_cons_self f files, h⟩
      · exact Or.inr ⟨g, List.mem_cons_of_mem f hg, hk⟩
    · rintro (h | ⟨g, hg, hk⟩)
      · exact Or.inl (Or.inl h)
      · rcases List.mem_cons.mp hg with rfl | hg'
        · exact Or.inl (Or.inr hk)
        · exact Or.inr ⟨g, hg', hk⟩

theorem foldl_processFile_all_keys_nodup (files : List FileInput) :
    ∀ (e : Engine), e.all_keys.Nodup → (files.foldl processFile e).all_keys.Nodup := by
  induction files with
  | nil => intro e h; exact h
  | cons f files ih =>
    intro e h
    rw [List.foldl_cons]
    exact ih _ (read_excel_all_keys_nodup e f h)

theorem foldl_processFile_file_data (files : List FileInput) :
    ∀ (e : Engine),
    (files.map FileInput.relpath).Nodup →
    (∀ f ∈ files, dget e.file_data f.relpath = none) →
    (files.foldl processFile e).file_data =
      e.file_data ++ files.map (fun f => (f.relpath, fileRecord f)) := by
  induction files with
  | nil => intro e _ _; simp
  | cons f files ih =>
    intro e hnd hfresh
    rw [List.foldl_cons]
    have hstep : (processFile e f).file_data = e.file_data ++ [(f.relpath, fileRecord f)] := by
      rw [processFile_file_data, dset_eq_append _ _ _ (hfresh f (List.mem_cons_self f files))]
    rw [List.map_cons, List.nodup_cons] at hnd
    have hfresh' : ∀ g ∈ files, dget (processFile e f).file_data g.relpath = none := by
      intro g hg
      rw [hstep, dget_append]
      have h1 : dget e.file_data g.relpath = none := hfresh g (List.mem_cons_of_mem f hg)
      have h2 : f.relpath ≠ g.relpath := by
        intro he
        exact hnd.1 (he ▸ List.mem_map_of_mem FileInput.relpath hg)
      simp only [h1]
      simp [dget, h2]
    rw [ih _ hnd.2 hfresh', hstep]
    simp

/-! Shape lemmas for `scan_files` and `consolidate`. -/

theorem scan_files_eq_filter (dir : List FileInput) :
    scan_files dir =
      dir.filter (fun f => isExcelName f.name && ! pyStartsWith f.name "~$") := by
  have aux : ∀ (l : List FileInput) (acc : List FileInput),
      l.foldl (fun acc f =>
        if isExcelName f.name then
          if ¬ pyStartsWith f.name "~$" then acc ++ [f] else acc
        else acc) acc =
      acc ++ l.filter (fun f => isExcelName f.name && ! pyStartsWith f.name "~$") := by
    intro l
    induction l with
    | nil => intro acc; simp
    | cons f l ih =>
      intro acc
      rw [List.foldl_cons]
      by_cases h1 : isExcelName f.name
      · by_cases h2 : pyStartsWith f.name "~$"
        · rw [if_pos h1, if_neg (by simpa using h2), ih]
          rw [List.filter_cons_of_neg (by simp [h1, h2])]
        · rw [if_pos h1, if_pos (by simpa using h2), ih]
          rw [List.filter_cons_of_pos (by simp [h1, h2])]
          simp
      · rw [if_neg h1, ih, List.filter_cons_of_neg (by simp [h1])]
  exact aux dir []

theorem consolidate_none_of_scan_nil (e₀ : Engine) (dir : List FileInput)
    (h : scan_files dir = []) : consolidate e₀ dir = (e₀, none) := by
  unfold consolidate
  rw [h]
  rfl

theorem consolidate_none_of_no_keys (e₀ : Engine) (dir : List FileInput)
    (h1 : scan_files dir ≠ [])
    (h2 : ((scan_files dir).foldl processFile e₀).all_keys = []) :
    consolidate e₀ dir = ((scan_files dir).foldl processFile e₀, none) := by
  unfold consolidate
  simp only [List.isEmpty_iff]
  rw [if_neg h1, if_pos h2]

theorem consolidate_some (e₀ : Engine) (dir : List FileInput)
    (h1 : scan_files dir ≠ [])
    (h2 : ((scan_files dir).foldl processFile e₀).all_keys ≠ []) :
    consolidate e₀ dir =
      ((scan_files dir).foldl processFile e₀,
        some (("Source File" ::
            pySorted ((scan_files dir).foldl processFile e₀).all_keys) ::
          ((scan_files dir).foldl processFile e₀).file_data.map
            (buildRow ((scan_files dir).foldl processFile e₀)
              (pySorted ((scan_files dir).foldl processFile e₀).all_keys)))) := by
  unfold consolidate
  simp only [List.isEmpty_iff]
  rw [if_neg h1, if_neg h2, foldl_append_singleton]
  rfl

/-- Membership in the final key universe: a key is collected iff some
scanned file's record contains it. -/
theorem finalKeys_mem (dir : List FileInput) (k : String) :
    k ∈ ((scan_files dir).foldl processFile initEngine).all_keys ↔
      ∃ f ∈ scan_files dir, dget (fileRecord f) k ≠ none := by
  rw [foldl_processFile_all_keys_mem]
  simp [initEngine]

theorem finalKeys_nodup (dir : List FileInput) :
    ((scan_files dir).foldl processFile initEngine).all_keys.Nodup :=
  foldl_processFile_all_keys_nodup (scan_files dir) initEngine List.nodup_nil

theorem finalKeys_eq_nil (dir : List FileInput) :
    ((scan_files dir).foldl processFile initEngine).all_keys = [] ↔
      ∀ f ∈ scan_files dir, ∀ k, dget (fileRecord f) k = none := by
  rw [List.eq_nil_iff_forall_not_mem]
  constructor
  · intro h f hf k
    by_contra hk
    exact h k ((finalKeys_mem dir k).mpr ⟨f, hf, hk⟩)
  · intro h k hk
    obtain ⟨f, hf, hne⟩ := (finalKeys_mem dir k).mp hk
    exact hne (h f hf k)

/-! The `value_map` construction of `consolidate`'s row loop: whatever the
file's recorded key order is, the emitted cell for a sorted key `k` is
`data.get(k, "")`. -/

theorem vm_fill_sound (data : Record) (ks : List String) :
    ∀ (vm : Record), (∀ k v, dget vm k = some v → v = (dget data k).getD "") →
    ∀ k v, dget (ks.foldl (fun vm k => dset vm k ((dget data k).getD "")) vm) k = some v →
      v = (dget data k).getD "" := by
  induction ks with
  | nil => intro vm h; exact h
  | cons k₀ ks ih =>
    intro vm h
    rw [List.foldl_cons]
    apply ih
    intro k v hget
    rw [dget_dset] at hget
    by_cases hk : k₀ = k
    · subst hk
      rw [if_pos rfl] at hget
      exact (Option.some.inj hget).symm
    · rw [if_neg hk] at hget
      exact h k v hget

theorem vm_cond_sound (data : Record) (ks : List String) :
    ∀ (vm : Record), (∀ k v, dget vm k = some v → v = (dget data k).getD "") →
    ∀ k v,
      dget (ks.foldl
        (fun vm k => if dget vm k = none then dset vm k ((dget data k).getD "") else vm) vm) k
        = some v →
      v = (dget data k).getD "" := by
  induction ks with
  | nil => intro vm h; exact h
  | cons k₀ ks ih =>
    intro vm h
    rw [List.foldl_cons]
    apply ih
    by_cases hc : dget vm k₀ = none
    · rw [if_pos hc]
      intro k v hget
      rw [dget_dset] at hget
      by_cases hk : k₀ = k
      · subst hk
        rw [if_pos rfl] at hget
        exact (Option.some.inj hget).symm
      · rw [if_neg hk] at hget
        exact h k v hget
    · rw [if_neg hc]
      exact h

theorem vm_cond_mono (data : Record) (ks : List String) :
    ∀ (vm : Record) (k : String), dget vm k ≠ none →
      dget (ks.foldl
        (fun vm k => if dget vm k = none then dset vm k ((dget data k).getD "") else vm) vm) k
        ≠ none := by
  induction ks with
  | nil => intro vm k h; exact h
  | cons k₀ ks ih =>
    intro vm k h
    rw [List.foldl_cons]
    apply ih
    by_cases hc : dget vm k₀ = none
    · rw [if_pos hc, dget_dset]
      by_cases hk : k₀ = k
      · simp [hk]
      · rw [if_neg hk]
        exact h
    · rw [if_neg hc]
      exact h

theorem vm_cond_cover (data : Record) (ks : List String) :
    ∀ (vm : Record) (k : String), k ∈ ks →
      dget (ks.foldl
        (fun vm k => if dget vm k = none then dset vm k ((dget data k).getD "") else vm) vm) k
        ≠ none := by
  induction ks with
  | nil => intro vm k h; exact absurd h (List.not_mem_nil k)
  | cons k₀ ks ih =>
    intro vm k hk
    rw [List.foldl_cons]
    rcases List.mem_cons.mp hk with rfl | hk'
    · apply vm_cond_mono
      by_cases hc : dget vm k = none
      · rw [if_pos hc, dget_dset_self]
        exact Option.noConfusion
      · rw [if_neg hc]
        exact hc
    · exact ih _ _ hk'

theorem buildRow_eq (e : Engine) (sk : List String) (p : String × Record) :
    buildRow e sk p = p.1 :: sk.map (fun k => (dget p.2 k).getD "") := by
  simp only [buildRow]
  congr 1
  apply List.map_congr_left
  intro k hk
  have hbase : ∀ k' v, dget ([] : Record) k' = some v → v = (dget p.2 k').getD "" := by
    intro k' v h
    exact Option.noConfusion h
  have hsound := vm_cond_sound p.2 sk _
    (vm_fill_sound p.2 ((dget e.file_order p.1).getD []) [] hbase)
  have hcover := vm_cond_cover p.2 sk
    (((dget e.file_order p.1).getD []).foldl
      (fun vm k => dset vm k ((dget p.2 k).getD "")) []) k hk
  obtain ⟨v, hv⟩ := Option.ne_none_iff_exists'.mp hcover
  rw [hv, hsound k v hv]
  simp

/-- The full table produced by a successful run, in terms of the scanned
files: header, then one row per scanned file, each cell looked up in the
file's own record. -/
theorem consolidate_table (dir : List FileInput)
    (hnodup : ((scan_files dir).map FileInput.relpath).Nodup)
    (h1 : scan_files dir ≠ [])
    (h2 : ((scan_files dir).foldl processFile initEngine).all_keys ≠ []) :
    consolidate initEngine dir =
      ((scan_files dir).foldl processFile initEngine,
        some (("Source File" ::
            pySorted ((scan_files dir).foldl processFile initEngine).all_keys) ::
          (scan_files dir).map (fun f => f.relpath ::
            (pySorted ((scan_files dir).foldl processFile initEngine).all_keys).map
              (fun k => (dget (fileRecord f) k).getD "")))) := by
  rw [consolidate_some initEngine dir h1 h2]
  have hfd : ((scan_files dir).foldl processFile initEngine).file_data =
      (scan_files dir).map (fun f => (f.relpath, fileRecord f)) := by
    have h := foldl_processFile_file_data (scan_files dir) initEngine hnodup
      (fun f _ => rfl)
    simpa [initEngine] using h
  rw [hfd, List.map_map]
  congr 3
  apply List.map_congr_left
  intro f _
  exact buildRow_eq _ _ (f.relpath, fileRecord f)

/-! Claim theorems. -/

/-- C1: for every run of `consolidate` that assembles a table, row 0 is the
header `"Source File"` followed by the keys of the global key universe
sorted lexicographically (case-sensitively on the raw key strings), and
each subsequent row is one scanned file's root-relative path followed by,
for each key in that sorted order, the file's stored value for that key if
the key is in the file's mapping, else the empty string. -/
theorem claim_C1 (dir : List FileInput) (e' : Engine) (t : List (List String))
    (hnodup : ((scan_files dir).map FileInput.relpath).Nodup)
    (hrun : consolidate initEngine dir = (e', some t)) :
    ∃ us : List String,
      us.Sorted (fun a b => lexLe a b = true) ∧
      us.Nodup ∧
      (∀ k, k ∈ us ↔ ∃ f ∈ scan_files dir, dget (fileRecord f) k ≠ none) ∧
      t = ("Source File" :: us) ::
        (scan_files dir).map
          (fun f => f.relpath :: us.map (fun k => (dget (fileRecord f) k).getD "")) := by
  have h1 : scan_files dir ≠ [] := by
    intro h
    rw [consolidate_none_of_scan_nil initEngine dir h] at hrun
    exact Option.noConfusion (congrArg Prod.snd hrun)
  have h2 : ((scan_files dir).foldl processFile initEngine).all_keys ≠ [] := by
    intro h
    rw [consolidate_none_of_no_keys initEngine dir h1 h] at hrun
    exact Option.noConfusion (congrArg Prod.snd hrun)
  rw [consolidate_table dir hnodup h1 h2] at hrun
  refine ⟨pySorted ((scan_files dir).foldl processFile initEngine).all_keys,
    pySorted_sorted _, pySorted_nodup _ (finalKeys_nodup dir), ?_, ?_⟩
  · intro k
    rw [pySorted_mem, finalKeys_mem]
  · exact (Option.some.inj (congrArg Prod.snd hrun)).symm

/-- C1 witness: a two-file run, hypotheses discharged concretely. -/
theorem claim_C1_witness :
    ∃ us : List String,
      us.Sorted (fun a b => lexLe a b = true) ∧
      us.Nodup ∧
      (∀ k, k ∈ us ↔ ∃ f ∈ scan_files
        [⟨"b.xlsx", "b.xlsx", some [(some "B", some "2")]⟩,
         ⟨"a.xlsx", "a.xlsx", some [(some "A", some "1")]⟩],
        dget (fileRecord f) k ≠ none) ∧
      [["Source File", "A", "B"], ["b.xlsx", "", "2"], ["a.xlsx", "1", ""]] =
        ("Source File" :: us) ::
        (scan_files
          [⟨"b.xlsx", "b.xlsx", some [(some "B", some "2")]⟩,
           ⟨"a.xlsx", "a.xlsx", some [(some "A", some "1")]⟩]).map
          (fun f => f.relpath :: us.map (fun k => (dget (fileRecord f) k).getD "")) :=
  claim_C1
    [⟨"b.xlsx", "b.xlsx", some [(some "B", some "2")]⟩,
     ⟨"a.xlsx", "a.xlsx", some [(some "A", some "1")]⟩]
    (consolidate initEngine
      [⟨"b.xlsx", "b.xlsx", some [(some "B", some "2")]⟩,
       ⟨"a.xlsx", "a.xlsx", some [(some "A", some "1")]⟩]).1
    [["Source File", "A", "B"], ["b.xlsx", "", "2"], ["a.xlsx", "1", ""]]
    (by decide) (by decide)

/-- C2: whatever the input files are, the key columns of the assembled
table are duplicate-free and their set is exactly the union, over all
scanned files, of the keys extracted from that file. -/
theorem claim_C2 (dir : List FileInput) (e' : Engine) (t : List (List String))
    (us : List String)
    (hrun : consolidate initEngine dir = (e', some t))
    (hhead : t.head? = some ("Source File" :: us)) :
    us.Nodup ∧
      ∀ k, (k ∈ us ↔ ∃ f ∈ scan_files dir, dget (fileRecord f) k ≠ none) := by
  have h1 : scan_files dir ≠ [] := by
    intro h
    rw [consolidate_none_of_scan_nil initEngine dir h] at hrun
    exact Option.noConfusion (congrArg Prod.snd hrun)
  have h2 : ((scan_files dir).foldl processFile initEngine).all_keys ≠ [] := by
    intro h
    rw [consolidate_none_of_no_keys initEngine dir h1 h] at hrun
    exact Option.noConfusion (congrArg Prod.snd hrun)
  rw [consolidate_some initEngine dir h1 h2] at hrun
  have ht := Option.some.inj (congrArg Prod.snd hrun)
  rw [← ht] at hhead
  simp only [List.head?_cons] at hhead
  have hus := Option.some.inj hhead
  have husk : pySorted ((scan_files dir).foldl processFile initEngine).all_keys = us :=
    (List.cons.inj hus).2
  constructor
  · rw [← husk]
    exact pySorted_nodup _ (finalKeys_nodup dir)
  · intro k
    rw [← husk, pySorted_mem, finalKeys_mem]

/-- C2 witness: two overlapping files, hypotheses discharged concretely. -/
theorem claim_C2_witness :
    (["A", "B", "C"] : List String).Nodup ∧
      ∀ k, (k ∈ (["A", "B", "C"] : List String) ↔
        ∃ f ∈ scan_files
          [⟨"1.xlsx", "1.xlsx", some [(some "A", some "x"), (some "B", some "y")]⟩,
           ⟨"2.xlsx", "2.xlsx", some [(some "B", some "z"), (some "C", some "w")]⟩],
          dget (fileRecord f) k ≠ none) :=
  claim_C2
    [⟨"1.xlsx", "1.xlsx", some [(some "A", some "x"), (some "B", some "y")]⟩,
     ⟨"2.xlsx", "2.xlsx", some [(some "B", some "z"), (some "C", some "w")]⟩]
    (consolidate initEngine
      [⟨"1.xlsx", "1.xlsx", some [(some "A", some "x"), (some "B", some "y")]⟩,
       ⟨"2.xlsx", "2.xlsx", some [(some "B", some "z"), (some "C", some "w")]⟩]).1
    [["Source File", "A", "B", "C"], ["1.xlsx", "x", "y", ""], ["2.xlsx", "", "z", "w"]]
    ["A", "B", "C"]
    (by decide) (by decide)

/-- C3: within one readable file, a non-empty key found by `find?` (its
first occurrence, top to bottom) determines the stored value, and the key
occurs exactly once in the file's ordered key list; later occurrences are
ignored. -/
theorem claim_C3 (rows : List Row) (k : String) (r₀ : Row) (f : FileInput)
    (hk : k ≠ "")
    (hc : f.content = some rows)
    (hfind : rows.find? (fun r => keyOf r == k) = some r₀) :
    dget (fileRecord f) k = some (valOf r₀) ∧ (fileKeys f).count k = 1 := by
  have hrec : fileRecord f = (rows.foldl pairStep ([], [])).1 := by
    simp [fileRecord, hc]
  have hkeys : fileKeys f = (rows.foldl pairStep ([], [])).2 := by
    simp [fileKeys, hc]
  have hget : dget (rows.foldl pairStep ([], [])).1 k = some (valOf r₀) :=
    dget_foldl_pairStep_find rows [] [] k r₀ hk rfl hfind
  constructor
  · rw [hrec]
    exact hget
  · rw [hkeys]
    have hinv := foldl_pairStep_inv rows [] [] List.nodup_nil
      (by intro k'; simp [dget])
    have hmem : k ∈ (rows.foldl pairStep ([], [])).2 := by
      rw [hinv.2 k, hget]
      simp
    exact List.count_eq_one_of_mem hinv.1 hmem

/-- C3 witness: a file with rows `(X,"1")` then `(X,"2")` maps `X` to
`"1"`, lists `X` once, and the consolidated cell for `X` is `"1"`. -/
theorem claim_C3_witness :
    dget (fileRecord
        ⟨"x.xlsx", "x.xlsx", some [(some "X", some "1"), (some "X", some "2")]⟩) "X"
      = some "1" ∧
    (fileKeys
        ⟨"x.xlsx", "x.xlsx", some [(some "X", some "1"), (some "X", some "2")]⟩).count "X"
      = 1 ∧
    (consolidate initEngine
        [⟨"x.xlsx", "x.xlsx", some [(some "X", some "1"), (some "X", some "2")]⟩]).2
      = some [["Source File", "X"], ["x.xlsx", "1"]] := by
  have h := claim_C3 [(some "X", some "1"), (some "X", some "2")] "X"
    (some "X", some "1")
    ⟨"x.xlsx", "x.xlsx", some [(some "X", some "1"), (some "X", some "2")]⟩
    (by decide) rfl (by decide)
  exact ⟨h.1, h.2, by decide⟩

/-- C5: `consolidate` reports failure without a table exactly when
discovery returned no file or when, after extracting every discovered
file, the key universe is empty; otherwise it hands a table to export and
returns success. -/
theorem claim_C5 (dir : List FileInput) :
    (consolidate initEngine dir).2 = none ↔
      (scan_files dir = [] ∨
        ∀ f ∈ scan_files dir, ∀ k, dget (fileRecord f) k = none) := by
  by_cases h1 : scan_files dir = []
  · rw [consolidate_none_of_scan_nil initEngine dir h1]
    simp [h1]
  · by_cases h2 : ((scan_files dir).foldl processFile initEngine).all_keys = []
    · rw [consolidate_none_of_no_keys initEngine dir h1 h2]
      constructor
      · intro _
        exact Or.inr ((finalKeys_eq_nil dir).mp h2)
      · intro _
        rfl
    · rw [consolidate_some initEngine dir h1 h2]
      constructor
      · intro h
        exact Option.noConfusion h
      · rintro (h | h)
        · exact absurd h h1
        · exact absurd ((finalKeys_eq_nil dir).mpr h) h2

/-- C5 witness: an empty directory yields a failed run with no table. -/
theorem claim_C5_witness : (consolidate initEngine []).2 = none :=
  (claim_C5 []).mpr (Or.inl rfl)

/-- C7: an absent key or value cell is normalised to the empty string, a
present key cell is trimmed, and a row whose post-trim key is empty is
skipped entirely: it changes neither the mapping, nor the ordered key
list, nor the global key universe, and consequently no extracted record
ever contains the empty key. -/
theorem claim_C7 :
    (∀ v, keyOf (none, v) = "") ∧
    (∀ s v, keyOf (some s, v) = pyStrip s) ∧
    (∀ c, valOf (c, none) = "") ∧
    (∀ c s, valOf (c, some s) = s) ∧
    (∀ acc r, keyOf r = "" → readRow acc r = acc) ∧
    (∀ f : FileInput, dget (fileRecord f) "" = none) := by
  refine ⟨fun v => rfl, fun s v => rfl, fun c => rfl, fun c s => rfl, ?_, ?_⟩
  · intro acc r h
    obtain ⟨d, ko, ak⟩ := acc
    exact readRow_skip d ko ak r h
  · intro f
    cases hc : f.content with
    | none => simp [fileRecord, hc, dget]
    | some rows =>
        simp only [fileRecord, hc]
        exact dget_foldl_pairStep_nil_key rows [] [] rfl

/-- C7 witness: a row with a blank key cell is skipped by the row loop. -/
theorem claim_C7_witness :
    keyOf ((none : Option String), some "v") = "" ∧
    readRow ([], [], []) ((none : Option String), some "v") = ([], [], []) :=
  ⟨rfl, claim_C7.2.2.2.2.1 ([], [], []) ((none : Option String), some "v") rfl⟩

/-- C4: a file whose extraction fails yields an empty record, the run is
not aborted (given some file contributed a key, a table is produced), the
failed file still contributes a row holding its relative path and only
empty key cells, and every scanned file's row keeps its real values. -/
theorem claim_C4 (dir : List FileInput) (f : FileInput)
    (hnodup : ((scan_files dir).map FileInput.relpath).Nodup)
    (hf : f ∈ scan_files dir)
    (hbad : f.content = none)
    (hvalid : ∃ g ∈ scan_files dir, ∃ k, dget (fileRecord g) k ≠ none) :
    fileRecord f = [] ∧
    ∃ e' t us, consolidate initEngine dir = (e', some t) ∧
      t.head? = some ("Source File" :: us) ∧
      (f.relpath :: us.map (fun _ => "")) ∈ t.drop 1 ∧
      ∀ g ∈ scan_files dir,
        (g.relpath :: us.map (fun k => (dget (fileRecord g) k).getD "")) ∈ t.drop 1 := by
  have h1 : scan_files dir ≠ [] := List.ne_nil_of_mem hf
  have h2 : ((scan_files dir).foldl processFile initEngine).all_keys ≠ [] := by
    obtain ⟨g, hg, k, hk⟩ := hvalid
    exact List.ne_nil_of_mem ((finalKeys_mem dir k).mpr ⟨g, hg, hk⟩)
  have hrecf : fileRecord f = [] := by simp [fileRecord, hbad]
  refine ⟨hrecf, _, _,
    pySorted ((scan_files dir).foldl processFile initEngine).all_keys,
    consolidate_table dir hnodup h1 h2, rfl, ?_, ?_⟩
  · have hmem := List.mem_map_of_mem
      (fun g => g.relpath ::
        (pySorted ((scan_files dir).foldl processFile initEngine).all_keys).map
          (fun k => (dget (fileRecord g) k).getD "")) hf
    have hrow : f.relpath ::
        (pySorted ((scan_files dir).foldl processFile initEngine).all_keys).map
          (fun k => (dget (fileRecord f) k).getD "") =
        f.relpath ::
        (pySorted ((scan_files dir).foldl processFile initEngine).all_keys).map
          (fun _ => "") := by
      rw [hrecf]
      rfl
    exact hrow ▸ hmem
  · intro g hg
    exact List.mem_map_of_mem
      (fun g => g.relpath ::
        (pySorted ((scan_files dir).foldl processFile initEngine).all_keys).map
          (fun k => (dget (fileRecord g) k).getD "")) hg

/-- C4 witness: one corrupt file beside one valid file. -/
theorem claim_C4_witness :
    fileRecord (⟨"bad.xlsx", "bad.xlsx", none⟩ : FileInput) = [] ∧
    ∃ e' t us, consolidate initEngine
        [⟨"bad.xlsx", "bad.xlsx", none⟩,
         ⟨"good.xlsx", "good.xlsx", some [(some "A", some "1")]⟩] = (e', some t) ∧
      t.head? = some ("Source File" :: us) ∧
      ("bad.xlsx" :: us.map (fun _ => "")) ∈ t.drop 1 ∧
      ∀ g ∈ scan_files
        [⟨"bad.xlsx", "bad.xlsx", none⟩,
         ⟨"good.xlsx", "good.xlsx", some [(some "A", some "1")]⟩],
        (g.relpath :: us.map (fun k => (dget (fileRecord g) k).getD "")) ∈ t.drop 1 :=
  claim_C4
    [⟨"bad.xlsx", "bad.xlsx", none⟩,
     ⟨"good.xlsx", "good.xlsx", some [(some "A", some "1")]⟩]
    ⟨"bad.xlsx", "bad.xlsx", none⟩
    (by decide) (by decide) rfl
    ⟨⟨"good.xlsx", "good.xlsx", some [(some "A", some "1")]⟩, by decide, "A", by decide⟩

/-- C6: the discoverer keeps exactly the files whose name passes the
case-insensitive extension filter and does not start with `~$`; it never
inspects file contents (changing every file's content commutes with it),
and when nothing matches it returns the empty list. -/
theorem claim_C6 (dir : List FileInput) :
    (∀ f, f ∈ scan_files dir ↔
      (f ∈ dir ∧ isExcelName f.name = true ∧ pyStartsWith f.name "~$" = false)) ∧
    ((∀ f ∈ dir, isExcelName f.name = true → pyStartsWith f.name "~$" = true) →
      scan_files dir = []) ∧
    (∀ g : FileInput → Option (List Row),
      scan_files (dir.map (fun f => ⟨f.name, f.relpath, g f⟩)) =
        (scan_files dir).map (fun f => ⟨f.name, f.relpath, g f⟩)) := by
  refine ⟨?_, ?_, ?_⟩
  · intro f
    rw [scan_files_eq_filter, List.mem_filter]
    simp [Bool.and_eq_true, Bool.not_eq_true']
  · intro h
    rw [scan_files_eq_filter, List.filter_eq_nil_iff]
    intro f hf
    simp only [Bool.and_eq_true, Bool.not_eq_true', not_and]
    intro hex
    rw [h f hf hex]
    exact fun hc => Bool.noConfusion hc
  · intro g
    rw [scan_files_eq_filter, scan_files_eq_filter, List.filter_map]
    rfl

/-- C6 witness: an upper-case extension is kept, a lock file and a text
file are dropped, and a no-match directory gives the empty list. -/
theorem claim_C6_witness :
    (⟨"a.XLSX", "a", none⟩ : FileInput) ∈ scan_files
      [⟨"a.XLSX", "a", none⟩, ⟨"~$b.xlsx", "b", none⟩, ⟨"c.txt", "c", none⟩] ∧
    scan_files [(⟨"d.txt", "d", none⟩ : FileInput)] = [] :=
  ⟨((claim_C6 [⟨"a.XLSX", "a", none⟩, ⟨"~$b.xlsx", "b", none⟩, ⟨"c.txt", "c", none⟩]).1
      ⟨"a.XLSX", "a", none⟩).mpr ⟨by decide, by decide, by decide⟩,
    (claim_C6 [⟨"d.txt", "d", none⟩]).2.1 (by decide)⟩

/-- C8: extracting the discovered files in a different order leaves the
outcome and the header unchanged and permutes only the order of the data
rows, so the set of rows (and each cell in them) is the same. -/
theorem claim_C8 (dir₁ dir₂ : List FileInput)
    (hperm : List.Perm dir₁ dir₂)
    (hnodup : ((scan_files dir₁).map FileInput.relpath).Nodup) :
    ((consolidate initEngine dir₁).2 = none ↔ (consolidate initEngine dir₂).2 = none) ∧
    ∀ t₁ t₂, (consolidate initEngine dir₁).2 = some t₁ →
      (consolidate initEngine dir₂).2 = some t₂ →
      t₁.head? = t₂.head? ∧
      List.Perm (t₁.drop 1) (t₂.drop 1) ∧
      (t₁.drop 1).toFinset = (t₂.drop 1).toFinset := by
  have hs : List.Perm (scan_files dir₁) (scan_files dir₂) := by
    rw [scan_files_eq_filter, scan_files_eq_filter]
    exact hperm.filter _
  have hmemk : ∀ k,
      (k ∈ ((scan_files dir₁).foldl processFile initEngine).all_keys ↔
        k ∈ ((scan_files dir₂).foldl processFile initEngine).all_keys) := by
    intro k
    rw [finalKeys_mem, finalKeys_mem]
    constructor
    · rintro ⟨f, hf, hk⟩
      exact ⟨f, hs.mem_iff.mp hf, hk⟩
    · rintro ⟨f, hf, hk⟩
      exact ⟨f, hs.mem_iff.mpr hf, hk⟩
  by_cases h1 : scan_files dir₁ = []
  · have h1' : scan_files dir₂ = [] := by
      rw [h1] at hs
      exact hs.nil_eq.symm
    rw [consolidate_none_of_scan_nil _ _ h1, consolidate_none_of_scan_nil _ _ h1']
    exact ⟨Iff.rfl, fun t₁ t₂ h _ => Option.noConfusion h⟩
  · have h1' : scan_files dir₂ ≠ [] := by
      intro h
      rw [h] at hs
      exact h1 hs.eq_nil
    by_cases h2 : ((scan_files dir₁).foldl processFile initEngine).all_keys = []
    · have h2' : ((scan_files dir₂).foldl processFile initEngine).all_keys = [] := by
        rw [List.eq_nil_iff_forall_not_mem] at h2 ⊢
        intro k hk
        exact h2 k ((hmemk k).mpr hk)
      rw [consolidate_none_of_no_keys _ _ h1 h2, consolidate_none_of_no_keys _ _ h1' h2']
      exact ⟨Iff.rfl, fun t₁ t₂ h _ => Option.noConfusion h⟩
    · have h2' : ((scan_files dir₂).foldl processFile initEngine).all_keys ≠ [] := by
        intro h
        apply h2
        rw [List.eq_nil_iff_forall_not_mem] at h ⊢
        intro k hk
        exact h k ((hmemk k).mp hk)
      have hnodup₂ : ((scan_files dir₂).map FileInput.relpath).Nodup :=
        (hs.map FileInput.relpath).nodup_iff.mp hnodup
      have hsk : pySorted ((scan_files dir₁).foldl processFile initEngine).all_keys =
          pySorted ((scan_files dir₂).foldl processFile initEngine).all_keys :=
        pySorted_eq_of_mem_iff _ _ (finalKeys_nodup dir₁) (finalKeys_nodup dir₂) hmemk
      rw [consolidate_table dir₁ hnodup h1 h2, consolidate_table dir₂ hnodup₂ h1' h2']
      refine ⟨⟨fun h => Option.noConfusion h, fun h => Option.noConfusion h⟩, ?_⟩
      intro t₁ t₂ ht₁ ht₂
      rw [← Option.some.inj ht₁, ← Option.some.inj ht₂]
      have hrows : List.Perm
          ((scan_files dir₁).map (fun f => f.relpath ::
            (pySorted ((scan_files dir₂).foldl processFile initEngine).all_keys).map
              (fun k => (dget (fileRecord f) k).getD "")))
          ((scan_files dir₂).map (fun f => f.relpath ::
            (pySorted ((scan_files dir₂).foldl processFile initEngine).all_keys).map
              (fun k => (dget (fileRecord f) k).getD ""))) :=
        hs.map _
      refine ⟨by simp only [hsk, List.head?_cons], ?_, ?_⟩
      · simp only [List.drop_succ_cons, List.drop_zero, hsk]
        exact hrows
      · simp only [List.drop_succ_cons, List.drop_zero, hsk]
        exact List.toFinset_eq_of_perm _ _ hrows

/-- C8 witness: the same two files in both orders. -/
theorem claim_C8_witness :
    ((consolidate initEngine
        [⟨"a.xlsx", "a.xlsx", some [(some "A", some "1")]⟩,
         ⟨"b.xlsx", "b.xlsx", some [(some "B", some "2")]⟩]).2 = none ↔
      (consolidate initEngine
        [⟨"b.xlsx", "b.xlsx", some [(some "B", some "2")]⟩,
         ⟨"a.xlsx", "a.xlsx", some [(some "A", some "1")]⟩]).2 = none) ∧
    ∀ t₁ t₂, (consolidate initEngine
        [⟨"a.xlsx", "a.xlsx", some [(some "A", some "1")]⟩,
         ⟨"b.xlsx", "b.xlsx", some [(some "B", some "2")]⟩]).2 = some t₁ →
      (consolidate initEngine
        [⟨"b.xlsx", "b.xlsx", some [(some "B", some "2")]⟩,
         ⟨"a.xlsx", "a.xlsx", some [(some "A", some "1")]⟩]).2 = some t₂ →
      t₁.head? = t₂.head? ∧
      List.Perm (t₁.drop 1) (t₂.drop 1) ∧
      (t₁.drop 1).toFinset = (t₂.drop 1).toFinset :=
  claim_C8
    [⟨"a.xlsx", "a.xlsx", some [(some "A", some "1")]⟩,
     ⟨"b.xlsx", "b.xlsx", some [(some "B", some "2")]⟩]
    [⟨"b.xlsx", "b.xlsx", some [(some "B", some "2")]⟩,
     ⟨"a.xlsx", "a.xlsx", some [(some "A", some "1")]⟩]
    (by decide) (by decide)

/-- C9: two runs over the same directory contents, each on a freshly
constructed engine, produce the same outcome and identical logical table
contents (same header row, same data rows). -/
theorem claim_C9 (e₁ e₂ : Engine) (dir : List FileInput)
    (h₁ : e₁ = initEngine) (h₂ : e₂ = initEngine) :
    (consolidate e₁ dir).2 = (consolidate e₂ dir).2 ∧
    ∀ t₁ t₂, (consolidate e₁ dir).2 = some t₁ → (consolidate e₂ dir).2 = some t₂ →
      t₁.head? = t₂.head? ∧ t₁.drop 1 = t₂.drop 1 := by
  subst h₁
  subst h₂
  refine ⟨rfl, ?_⟩
  intro t₁ t₂ ha hb
  rw [ha] at hb
  obtain rfl := Option.some.inj hb
  exact ⟨rfl, rfl⟩

/-- C9 witness: a concrete one-file directory, both engines fresh. -/
theorem claim_C9_witness :
    (consolidate initEngine [⟨"a.xlsx", "a.xlsx", some [(some "A", some "1")]⟩]).2 =
      (consolidate initEngine [⟨"a.xlsx", "a.xlsx", some [(some "A", some "1")]⟩]).2 ∧
    ∀ t₁ t₂,
      (consolidate initEngine [⟨"a.xlsx", "a.xlsx", some [(some "A", some "1")]⟩]).2
        = some t₁ →
      (consolidate initEngine [⟨"a.xlsx", "a.xlsx", some [(some "A", some "1")]⟩]).2
        = some t₂ →
      t₁.head? = t₂.head? ∧ t₁.drop 1 = t₂.drop 1 :=
  claim_C9 initEngine initEngine
    [⟨"a.xlsx", "a.xlsx", some [(some "A", some "1")]⟩] rfl rfl

/-- C10: in the output a key stored with the empty-string value is
indistinguishable from an absent key: in both cases the file's cell under
that key's column is the empty string; a blank-valued key still
contributes its column. -/
theorem claim_C10 (dir : List FileInput) (e' : Engine) (t : List (List String))
    (f : FileInput) (k : String) (us : List String)
    (hnodup : ((scan_files dir).map FileInput.relpath).Nodup)
    (hrun : consolidate initEngine dir = (e', some t))
    (hf : f ∈ scan_files dir)
    (hhead : t.head? = some ("Source File" :: us))
    (hempty : dget (fileRecord f) k = none ∨ dget (fileRecord f) k = some "") :
    (dget (fileRecord f) k = some "" → k ∈ us) ∧
    ∃ row, row ∈ t.drop 1 ∧ row.head? = some f.relpath ∧
      ∀ i : Nat, us[i]? = some k → row[i + 1]? = some "" := by
  have h1 : scan_files dir ≠ [] := List.ne_nil_of_mem hf
  have h2 : ((scan_files dir).foldl processFile initEngine).all_keys ≠ [] := by
    intro h
    rw [consolidate_none_of_no_keys initEngine dir h1 h] at hrun
    exact Option.noConfusion (congrArg Prod.snd hrun)
  rw [consolidate_table dir hnodup h1 h2] at hrun
  have htt := Option.some.inj (congrArg Prod.snd hrun)
  rw [← htt] at hhead
  simp only [List.head?_cons] at hhead
  have husk : pySorted ((scan_files dir).foldl processFile initEngine).all_keys = us :=
    (List.cons.inj (Option.some.inj hhead)).2
  constructor
  · intro hsome
    rw [← husk, pySorted_mem, finalKeys_mem]
    exact ⟨f, hf, by simp [hsome]⟩
  · refine ⟨f.relpath :: us.map (fun k' => (dget (fileRecord f) k').getD ""), ?_, rfl, ?_⟩
    · rw [← htt, ← husk]
      exact List.mem_map_of_mem
        (fun g => g.relpath ::
          (pySorted ((scan_files dir).foldl processFile initEngine).all_keys).map
            (fun k' => (dget (fileRecord g) k').getD "")) hf
    · intro i hi
      rw [List.getElem?_cons_succ, List.getElem?_map, hi]
      rcases hempty with h | h <;> rw [Option.map_some', h] <;> rfl

/-- C10 witness: a key with a blank value cell produces an empty cell and
still contributes its column. -/
theorem claim_C10_witness :
    (dget (fileRecord
        (⟨"e.xlsx", "e.xlsx", some [(some "A", none), (some "B", some "b")]⟩ : FileInput))
        "A" = some "" → ("A" : String) ∈ ["A", "B"]) ∧
    ∃ row, row ∈ ([["Source File", "A", "B"], ["e.xlsx", "", "b"]] : List (List String)).drop 1 ∧
      row.head? = some "e.xlsx" ∧
      ∀ i : Nat, (["A", "B"] : List String)[i]? = some "A" → row[i + 1]? = some "" :=
  claim_C10
    [⟨"e.xlsx", "e.xlsx", some [(some "A", none), (some "B", some "b")]⟩]
    (consolidate initEngine
      [⟨"e.xlsx", "e.xlsx", some [(some "A", none), (some "B", some "b")]⟩]).1
    [["Source File", "A", "B"], ["e.xlsx", "", "b"]]
    ⟨"e.xlsx", "e.xlsx", some [(some "A", none), (some "B", some "b")]⟩
    "A" ["A", "B"]
    (by decide) (by decide) (by decide) (by decide) (Or.inr (by decide))

end Consolidator
